import Mathlib

/-!
Verification development for the OpenBB Terminal integration-testing module
(`openbb_terminal/integration_testing.py`).  Python strings are embedded as
`List Char`; the module's string manipulations (`str.replace`, `in`,
`str.split`, `str.strip`, `re.sub`) are embedded as executable functions on
`List Char` below.  Functions whose natural recursion is not structural are
defined through a structural fuel parameter (so that the kernel can evaluate
them on concrete inputs) and their natural recursion equations are recovered
as lemmas.
-/

namespace IntegrationTesting

/-- Python strings are modelled as lists of characters. -/
abbrev Str := List Char

/-- Coercion from Lean string literals into the model. -/
def str (s : String) : Str := s.toList

/-- Python's substring test `pat in s`. -/
def occurs (pat : Str) : Str → Bool
  | [] => pat.isPrefixOf []
  | c :: rest => pat.isPrefixOf (c :: rest) || occurs pat rest

/-- Fuelled body of `replaceAll`; the fuel bounds the number of characters
still to be scanned. -/
def replaceAllF (pat rep : Str) : Nat → Str → Str
  | _, [] => []
  | 0, s => s
  | fuel + 1, c :: rest =>
    if pat.isPrefixOf (c :: rest) ∧ pat ≠ [] then
      rep ++ replaceAllF pat rep fuel ((c :: rest).drop pat.length)
    else
      c :: replaceAllF pat rep fuel rest

/-- Python's `s.replace(pat, rep)` for a non-empty pattern: scan left to
right, replacing each non-overlapping occurrence of `pat` by `rep`.
(The module only ever calls `replace` with non-empty literal patterns.) -/
def replaceAll (pat rep s : Str) : Str := replaceAllF pat rep s.length s

theorem replaceAllF_eq_replaceAll (pat rep : Str) :
    ∀ fuel s, s.length ≤ fuel → replaceAllF pat rep fuel s = replaceAll pat rep s := by
  intro fuel
  induction fuel using Nat.strong_induction_on with
  | _ fuel ih =>
    intro s hs
    cases s with
    | nil => cases fuel with | zero => rfl | succ n => rfl
    | cons c rest =>
    cases fuel with
    | zero => simp at hs
    | succ fuel =>
      simp only [List.length_cons, Nat.add_le_add_iff_right] at hs
      show _ = replaceAllF pat rep (rest.length + 1) (c :: rest)
      simp only [replaceAllF]
      by_cases h : pat.isPrefixOf (c :: rest) ∧ pat ≠ []
      · simp only [if_pos h]
        have hp : 0 < pat.length := List.length_pos.mpr h.2
        have hd : ((c :: rest).drop pat.length).length ≤ rest.length := by
          simp only [List.length_drop, List.length_cons]; omega
        rw [show replaceAllF pat rep fuel ((c :: rest).drop pat.length)
              = replaceAll pat rep ((c :: rest).drop pat.length) from
            ih fuel (Nat.lt_succ_self _) _ (le_trans hd hs),
          show replaceAllF pat rep rest.length ((c :: rest).drop pat.length)
              = replaceAll pat rep ((c :: rest).drop pat.length) from
            ih rest.length (Nat.lt_succ_of_le hs) _ hd]
      · simp only [if_neg h]
        rw [show replaceAllF pat rep fuel rest = replaceAll pat rep rest from
            ih fuel (Nat.lt_succ_self _) _ hs,
          show replaceAllF pat rep rest.length rest = replaceAll pat rep rest from
            ih rest.length (Nat.lt_succ_of_le hs) _ le_rfl]

theorem replaceAll_nil (pat rep : Str) : replaceAll pat rep [] = [] := rfl

theorem replaceAll_cons (pat rep : Str) (c : Char) (rest : Str) :
    replaceAll pat rep (c :: rest) =
      if pat.isPrefixOf (c :: rest) ∧ pat ≠ [] then
        rep ++ replaceAll pat rep ((c :: rest).drop pat.length)
      else
        c :: replaceAll pat rep rest := by
  show replaceAllF pat rep (rest.length + 1) (c :: rest) = _
  simp only [replaceAllF]
  by_cases h : pat.isPrefixOf (c :: rest) ∧ pat ≠ []
  · have hp : 0 < pat.length := List.length_pos.mpr h.2
    have hd : ((c :: rest).drop pat.length).length ≤ rest.length := by
      simp only [List.length_drop, List.length_cons]; omega
    simp only [if_pos h, replaceAllF_eq_replaceAll pat rep rest.length _ hd]
  · simp only [if_neg h, replaceAllF_eq_replaceAll pat rep rest.length rest le_rfl]

example : replaceAll (str "aa") (str "b") (str "aaa") = str "ba" := by decide
example : occurs (str "exit") (str "help exit") = true := by decide
example : occurs (str "x") (str "help") = false := by decide

theorem occurs_cons (pat : Str) (c : Char) (rest : Str) :
    occurs pat (c :: rest) = (pat.isPrefixOf (c :: rest) || occurs pat rest) := rfl

/-- A pattern that does not occur in a string is not replaced: `replaceAll`
is the identity there. -/
theorem replaceAll_of_not_occurs (pat rep : Str) :
    ∀ s, occurs pat s = false → replaceAll pat rep s = s := by
  intro s
  induction s with
  | nil => intro _; rfl
  | cons c rest ih =>
    intro h
    rw [occurs_cons, Bool.or_eq_false_iff] at h
    rw [replaceAll_cons, if_neg (by simp [h.1]), ih h.2]

/-- Replacing at an occurrence sitting at the front of the string. -/
theorem replaceAll_append_left (pat rep s : Str) (h : pat ≠ []) :
    replaceAll pat rep (pat ++ s) = rep ++ replaceAll pat rep s := by
  cases pat with
  | nil => exact absurd rfl h
  | cons p ps =>
    rw [show (p :: ps) ++ s = p :: (ps ++ s) from rfl, replaceAll_cons]
    have hpre : (p :: ps).isPrefixOf (p :: (ps ++ s)) = true := by
      simp [ List.isPrefixOf_iff_prefix]
    rw [if_pos ⟨hpre, List.cons_ne_nil p ps⟩]
    congr 1
    have hdrop : (p :: (ps ++ s)).drop (p :: ps).length = s := by
      simp [List.drop_left ps s]
    rw [hdrop]

/-- The opening-brace character, written by code point to keep brace
characters out of string literals. -/
def obrace : Char := Char.ofNat 123

/-- The closing-brace character. -/
def cbrace : Char := Char.ofNat 125

/-- Python's `s.strip("\n")`: remove leading and trailing newline
characters (line 170 of the module). -/
def stripNL (s : Str) : Str :=
  ((s.dropWhile (· = '\n')).reverse.dropWhile (· = '\n')).reverse

/-- Python's `s.rstrip()`: remove trailing whitespace. -/
def rstrip (s : Str) : Str :=
  (s.reverse.dropWhile Char.isWhitespace).reverse

/-- Modelled from the spec: `is_reset` lives in `terminal_helper`, which is
not under `src/`; the spec only says that reset-directive lines are stripped
during preprocessing, so a reset-directive line is modelled as a line whose
newline-stripped text is the reset directive itself. -/
def is_reset (line : Str) : Bool := stripNL line = str "reset"

/-- Input preprocessing of `run_scripts` (lines 167-171): drop reset lines,
lines containing the comment marker and falsy (empty) lines, then strip
newlines and drop lines that are empty after stripping. -/
def preprocess (raws : List Str) : List Str :=
  ((raws.filter fun x => !is_reset x && !occurs (str "#") x && !x.isEmpty).map
      stripNL).filter fun l => !l.isEmpty

/-- Fuelled body of `splitAll`. -/
def splitAllF (pat : Str) : Nat → Str → List Str
  | _, [] => [[]]
  | 0, s => [s]
  | fuel + 1, c :: rest =>
    if pat.isPrefixOf (c :: rest) ∧ pat ≠ [] then
      [] :: splitAllF pat fuel ((c :: rest).drop pat.length)
    else
      match splitAllF pat fuel rest with
      | seg :: segs => (c :: seg) :: segs
      | [] => [[c]]

/-- Python's `s.split(pat)` for a non-empty separator `pat`: the list of
segments between consecutive non-overlapping occurrences of `pat`. -/
def splitAll (pat s : Str) : List Str := splitAllF pat s.length s

theorem splitAllF_eq_splitAll (pat : Str) :
    ∀ fuel s, s.length ≤ fuel → splitAllF pat fuel s = splitAll pat s := by
  intro fuel
  induction fuel using Nat.strong_induction_on with
  | _ fuel ih =>
    intro s hs
    cases s with
    | nil => cases fuel with | zero => rfl | succ n => rfl
    | cons c rest =>
    cases fuel with
    | zero => simp at hs
    | succ fuel =>
      simp only [List.length_cons, Nat.add_le_add_iff_right] at hs
      show _ = splitAllF pat (rest.length + 1) (c :: rest)
      simp only [splitAllF]
      by_cases h : pat.isPrefixOf (c :: rest) ∧ pat ≠ []
      · simp only [if_pos h]
        have hp : 0 < pat.length := List.length_pos.mpr h.2
        have hd : ((c :: rest).drop pat.length).length ≤ rest.length := by
          simp only [List.length_drop, List.length_cons]; omega
        rw [ih fuel (Nat.lt_succ_self _) _ (le_trans hd hs),
          ih rest.length (Nat.lt_succ_of_le hs) _ hd]
      · simp only [if_neg h]
        rw [ih fuel (Nat.lt_succ_self _) _ hs,
          ih rest.length (Nat.lt_succ_of_le hs) _ le_rfl]

theorem splitAll_cons (pat : Str) (c : Char) (rest : Str) :
    splitAll pat (c :: rest) =
      if pat.isPrefixOf (c :: rest) ∧ pat ≠ [] then
        [] :: splitAll pat ((c :: rest).drop pat.length)
      else
        match splitAll pat rest with
        | seg :: segs => (c :: seg) :: segs
        | [] => [[c]] := by
  show splitAllF pat (rest.length + 1) (c :: rest) = _
  simp only [splitAllF]
  by_cases h : pat.isPrefixOf (c :: rest) ∧ pat ≠ []
  · have hp : 0 < pat.length := List.length_pos.mpr h.2
    have hd : ((c :: rest).drop pat.length).length ≤ rest.length := by
      simp only [List.length_drop, List.length_cons]; omega
    simp only [if_pos h, splitAllF_eq_splitAll pat rest.length _ hd]
  · simp only [if_neg h, splitAllF_eq_splitAll pat rest.length rest le_rfl]

example : splitAll (str "export ") (str "export reports/") = [[], str "reports/"] := by
  decide

example : splitAll [ '_' ] (str "call_load") = [str "call", str "load"] := by decide

theorem length_dropWhile_le (p : Char → Bool) (l : Str) :
    (l.dropWhile p).length ≤ l.length :=
  (List.dropWhile_suffix p).sublist.length_le

/-- Fuelled body of `splitWs`. -/
def splitWsF : Nat → Str → List Str
  | _, [] => []
  | 0, s => [s]
  | fuel + 1, c :: rest =>
    if c.isWhitespace then splitWsF fuel rest
    else
      (c :: rest.takeWhile fun d => !d.isWhitespace) ::
        splitWsF fuel (rest.dropWhile fun d => !d.isWhitespace)

/-- Python's `s.split()` (no separator): split on runs of whitespace,
dropping empty segments. -/
def splitWs (s : Str) : List Str := splitWsF s.length s

theorem splitWsF_eq_splitWs :
    ∀ fuel s, s.length ≤ fuel → splitWsF fuel s = splitWs s := by
  intro fuel
  induction fuel using Nat.strong_induction_on with
  | _ fuel ih =>
    intro s hs
    cases s with
    | nil => cases fuel with | zero => rfl | succ n => rfl
    | cons c rest =>
    cases fuel with
    | zero => simp at hs
    | succ fuel =>
      simp only [List.length_cons, Nat.add_le_add_iff_right] at hs
      show _ = splitWsF (rest.length + 1) (c :: rest)
      simp only [splitWsF]
      by_cases h : c.isWhitespace
      · simp only [if_pos h]
        rw [ih fuel (Nat.lt_succ_self _) _ hs,
          ih rest.length (Nat.lt_succ_of_le hs) _ le_rfl]
      · simp only [if_neg h]
        have hd : (rest.dropWhile fun d => !d.isWhitespace).length ≤ rest.length :=
          length_dropWhile_le _ _
        rw [ih fuel (Nat.lt_succ_self _) _ (le_trans hd hs),
          ih rest.length (Nat.lt_succ_of_le hs) _ hd]

theorem splitWs_cons (c : Char) (rest : Str) :
    splitWs (c :: rest) =
      if c.isWhitespace then splitWs rest
      else
        (c :: rest.takeWhile fun d => !d.isWhitespace) ::
          splitWs (rest.dropWhile fun d => !d.isWhitespace) := by
  show splitWsF (rest.length + 1) (c :: rest) = _
  simp only [splitWsF]
  by_cases h : c.isWhitespace
  · simp only [if_pos h, splitWsF_eq_splitWs rest.length rest le_rfl]
  · simp only [if_neg h,
      splitWsF_eq_splitWs rest.length _ (length_dropWhile_le _ _)]

example : splitWs (str "  a bc  d ") = [str "a", str "bc", str "d"] := by decide

/-- The positional placeholder token `$ARGV[i]` (line 178 of the module). -/
def argvToken (i : Nat) : Str := str "$ARGV[" ++ (Nat.repr i).toList ++ str "]"

/-- Positional substitution of `run_scripts` (lines 173-179): for each
`(i, arg)` of the enumerated routine arguments, replace every occurrence of
`$ARGV[i]` in the line by `arg`, sequentially. -/
def substArgv (routines_args : List Str) (line : Str) : Str :=
  routines_args.enum.foldl (fun acc p => replaceAll (argvToken p.1) p.2 acc) line

example : substArgv [str "AAPL", str "10"] (str "BUY $ARGV[0] $ARGV[1]")
    = str "BUY AAPL 10" := by decide

theorem foldl_replaceAll_id :
    ∀ (l : List (Nat × Str)) (line : Str),
      (∀ p ∈ l, occurs (argvToken p.1) line = false) →
      l.foldl (fun acc p => replaceAll (argvToken p.1) p.2 acc) line = line := by
  intro l
  induction l with
  | nil => intro line _; rfl
  | cons p ps ih =>
    intro line h
    rw [List.foldl_cons,
      replaceAll_of_not_occurs _ _ _ (h p (List.mem_cons_self p ps))]
    exact ih line fun q hq => h q (List.mem_cons_of_mem _ hq)

/-- C5 counterexample: the line `load AAPL # note` does not begin with the
comment marker, merely contains it, yet preprocessing drops it — contradicting
the claim that such a line is kept. -/
theorem c5_counterexample :
    (str "load AAPL # note\n").head? ≠ some '#' ∧
    occurs (str "#") (str "load AAPL # note\n") = true ∧
    preprocess [str "load AAPL # note\n"] = [] := by
  exact ⟨by decide, by decide, by decide⟩

/-- C5 (amended): preprocessing drops exactly the reset-directive lines, the
lines containing the comment marker anywhere (not only at the start), the
empty lines and the lines blank after newline-stripping; every other line
survives, in order, with surrounding newline characters stripped. -/
theorem c5_comment_stripping (raws : List Str) :
    preprocess raws = raws.filterMap fun x =>
      if !is_reset x && !occurs (str "#") x && !x.isEmpty && !(stripNL x).isEmpty
      then some (stripNL x) else none := by
  induction raws with
  | nil => rfl
  | cons x xs ih =>
    simp only [preprocess] at ih ⊢
    simp only [List.filter_cons, List.filterMap_cons]
    by_cases h1 : (!is_reset x && !occurs (str "#") x && !x.isEmpty) = true
    · rw [if_pos h1, List.map_cons, List.filter_cons]
      by_cases h2 : (!(stripNL x).isEmpty) = true
      · rw [if_pos h2, if_pos (by rw [h1, h2]; rfl), ih]
      · rw [if_neg h2, if_neg (by simp only [Bool.and_eq_true] at *; tauto), ih]
    · rw [if_neg h1, if_neg (by simp only [Bool.and_eq_true] at *; tauto), ih]

/-- C2: positional substitution.  The resolved form of
`BUY $ARGV[0] $ARGV[1]` under arguments `["AAPL", "10"]` is `BUY AAPL 10`;
a token whose index is at or beyond the number of supplied arguments is not
touched (no error is raised): substitution only rewrites occurrences of
`$ARGV[i]` for `i` below the argument count, so a line containing none of
those is left unchanged. -/
theorem c2_positional_substitution :
    substArgv [str "AAPL", str "10"] (str "BUY $ARGV[0] $ARGV[1]")
        = str "BUY AAPL 10" ∧
    substArgv [str "AAPL", str "10"] (str "sector $ARGV[2]")
        = str "sector $ARGV[2]" ∧
    ∀ args line,
      (∀ i ∈ List.range args.length, occurs (argvToken i) line = false) →
      substArgv args line = line := by
  refine ⟨by decide, by decide, ?_⟩
  intro args line h
  refine foldl_replaceAll_id args.enum line fun p hp => ?_
  have hlt : p.1 < args.length := by
    rw [List.mem_enum_iff_getElem?] at hp
    exact (List.getElem?_eq_some.mp hp).1
  exact h p.1 (List.mem_range.mpr hlt)

/-- C2 witness: a concrete line whose only indexed token is beyond the
single supplied argument is left unchanged. -/
theorem c2_witness :
    (∀ i ∈ List.range ([str "GME"] : List Str).length,
      occurs (argvToken i) (str "load $ARGV[3]") = false) ∧
    substArgv [str "GME"] (str "load $ARGV[3]") = str "load $ARGV[3]" :=
  ⟨by decide, c2_positional_substitution.2.2 [str "GME"] (str "load $ARGV[3]")
    (by decide)⟩

/-- Faults that the embedded fragments of `run_scripts` can raise. -/
inductive Fault where
  | indexError
deriving DecidableEq, Repr

instance exceptDecEq {ε α : Type} [DecidableEq ε] [DecidableEq α] :
    DecidableEq (Except ε α) := fun x y =>
  match x, y with
  | Except.ok a, Except.ok b =>
    if h : a = b then isTrue (by rw [h])
    else isFalse fun hh => h (by injection hh)
  | Except.error a, Except.error b =>
    if h : a = b then isTrue (by rw [h])
    else isFalse fun hh => h (by injection hh)
  | Except.ok _, Except.error _ => isFalse fun hh => Except.noConfusion hh
  | Except.error _, Except.ok _ => isFalse fun hh => Except.noConfusion hh

/-- Exit appension of `run_scripts` (lines 194-195): in test mode, if the
string `exit` does not occur in the last resolved line, the line `exit` is
appended; accessing the last line of an empty sequence raises an
`IndexError`. -/
def appendExit (test_mode : Bool) (lines : List Str) : Except Fault (List Str) :=
  if test_mode then
    match lines.getLast? with
    | none => Except.error Fault.indexError
    | some last =>
      if occurs (str "exit") last then Except.ok lines
      else Except.ok (lines ++ [str "exit"])
  else Except.ok lines

/-- C4 counterexample: the final line `help exit` is not an exit directive
(it is not the line `exit`, which is the directive the code itself appends),
yet no exit directive is appended, because the code tests substring
containment of `exit` rather than whether the line is an exit directive. -/
theorem c4_counterexample :
    str "help exit" ≠ str "exit" ∧
    appendExit true [str "stocks", str "help exit"]
      = Except.ok [str "stocks", str "help exit"] :=
  ⟨by decide, by decide⟩

/-- C4 (amended): in test mode, exactly one `exit` line is appended if and
only if the final resolved line does not contain `exit` as a substring (a
sequence whose final line contains `exit` — in particular one already ending
in an exit directive — is left unchanged); the appension is idempotent:
running the step twice changes nothing beyond the first run. -/
theorem c4_exit_appension (lines : List Str) (last : Str)
    (h : lines.getLast? = some last) :
    appendExit true lines =
      (if occurs (str "exit") last then Except.ok lines
       else Except.ok (lines ++ [str "exit"])) ∧
    (appendExit true lines).bind (appendExit true) = appendExit true lines := by
  constructor
  · simp [appendExit, h]
  · by_cases hocc : occurs (str "exit") last = true
    · simp [appendExit, h, hocc, Except.bind]
    · simp only [appendExit, if_pos rfl, h, hocc, Bool.false_eq_true, if_false,
        if_true, Except.bind]
      rw [List.getLast?_concat]
      simp [show occurs (str "exit") (str "exit") = true from by decide]

/-- C4 witness: a one-line sequence not containing `exit` gets exactly one
appended `exit` line. -/
theorem c4_witness :
    ([str "stocks"] : List Str).getLast? = some (str "stocks") ∧
    appendExit true [str "stocks"] = Except.ok [str "stocks", str "exit"] :=
  ⟨by decide,
    ((c4_exit_appension [str "stocks"] (str "stocks") (by decide)).1).trans
      (by decide)⟩

/-- Indices (ascending) at which character `c` occurs in a string. -/
def idxsOf (c : Char) : Str → List Nat
  | [] => []
  | d :: rest =>
    if d = c then 0 :: (idxsOf c rest).map (· + 1)
    else (idxsOf c rest).map (· + 1)

/-- Largest element of a list of naturals, if any. -/
def maxNat : List Nat → Option Nat
  | [] => none
  | n :: rest =>
    match maxNat rest with
    | none => some n
    | some m => some (max n m)

/-- Backtracking choice of the regular expression `\$\x7b[^\x7b]+=[^\x7b]+\x7d`
inside the maximal brace-free run `R` that follows `$\x7b`: the first greedy
group picks the last `=` in `R` that still leaves a non-empty second group
followed by a closing brace, and the second greedy group then extends to the
last closing brace of `R`.  Returns the index of the chosen `=` and of the
chosen closing brace. -/
def pickSplit (R : Str) : Option (Nat × Nat) :=
  let brs := idxsOf cbrace R
  let eqs := (idxsOf '=' R).filter fun e =>
    decide (1 ≤ e) && brs.any fun j => decide (e + 2 ≤ j)
  match maxNat eqs, maxNat brs with
  | some e, some j => if e + 2 ≤ j then some (e, j) else none
  | _, _ => none

/-- Attempt to match the placeholder regular expression at the head of the
string: on success, return the key (first group), the default (second group)
and the remainder of the string after the match. -/
def matchPh : Str → Option (Str × Str × Str)
  | c1 :: c2 :: rest =>
    if c1 = '$' ∧ c2 = obrace then
      let R := rest.takeWhile (· ≠ obrace)
      let after := rest.dropWhile (· ≠ obrace)
      match pickSplit R with
      | some (e, j) =>
        some (R.take e, (R.drop (e + 1)).take (j - e - 1), R.drop (j + 1) ++ after)
      | none => none
    else none
  | _ => none

/-- Association-list lookup used for the SpecialArguments dictionary. -/
def lookupStr (key : Str) : List (Str × Str) → Option Str
  | [] => none
  | (k, v) :: rest => if k = key then some v else lookupStr key rest

/-- Modelled from the spec: `replace_dynamic` lives in `terminal_controller`,
which is not under `src/`; per the spec it replaces a matched
`$\x7bkey=default\x7d` placeholder with the SpecialArguments value for `key`
if that value is present and non-empty, and with the default text otherwise. -/
def replace_dynamic (special : List (Str × Str)) (key dflt : Str) : Str :=
  match lookupStr key special with
  | some v => if v.isEmpty then dflt else v
  | none => dflt

/-- Fuelled body of `subDynamic`. -/
def subDynF (special : List (Str × Str)) : Nat → Str → Str
  | _, [] => []
  | 0, s => s
  | fuel + 1, c :: cs =>
    match matchPh (c :: cs) with
    | some (key, dflt, rest) =>
      replace_dynamic special key dflt ++ subDynF special fuel rest
    | none => c :: subDynF special fuel cs

/-- Named substitution of `run_scripts` (lines 181-189): Python's
`re.sub(r"\$\x7b[^\x7b]+=[^\x7b]+\x7d", lambda x: replace_dynamic(x, special_arguments), line)`,
embedded as a left-to-right scan that replaces each leftmost greedy match of
the placeholder pattern. -/
def subDynamic (special : List (Str × Str)) (s : Str) : Str :=
  subDynF special s.length s

theorem matchPh_length :
    ∀ s key dflt rest, matchPh s = some (key, dflt, rest) →
      rest.length < s.length := by
  intro s key dflt rest h
  match s with
  | [] => exact absurd h (by simp [matchPh])
  | [c] => exact absurd h (by simp [matchPh])
  | c1 :: c2 :: tail =>
    simp only [matchPh] at h
    by_cases hc : c1 = '$' ∧ c2 = obrace
    · rw [if_pos hc] at h
      revert h
      match hps : pickSplit (tail.takeWhile (· ≠ obrace)) with
      | none => intro h; exact absurd h (by simp)
      | some (e, j) =>
        intro h
        have hrest : rest
            = (tail.takeWhile (· ≠ obrace)).drop (j + 1)
              ++ tail.dropWhile (· ≠ obrace) := by
          have := (Option.some.inj h)
          exact congrArg (fun t => t.2.2) this |>.symm
        have h1 : ((tail.takeWhile (· ≠ obrace)).drop (j + 1)).length
            ≤ (tail.takeWhile (· ≠ obrace)).length := by
          simp [List.length_drop]
        have h2 : (tail.takeWhile (· ≠ obrace)).length
              + (tail.dropWhile (· ≠ obrace)).length = tail.length := by
          rw [← List.length_append, List.takeWhile_append_dropWhile]
        rw [hrest]
        simp only [List.length_append, List.length_cons]
        omega
    · rw [if_neg hc] at h
      exact absurd h (by simp)

theorem subDynF_eq_subDynamic (special : List (Str × Str)) :
    ∀ fuel s, s.length ≤ fuel → subDynF special fuel s = subDynamic special s := by
  intro fuel
  induction fuel using Nat.strong_induction_on with
  | _ fuel ih =>
    intro s hs
    cases s with
    | nil => cases fuel with | zero => rfl | succ n => rfl
    | cons c cs =>
    cases fuel with
    | zero => simp at hs
    | succ fuel =>
      simp only [List.length_cons, Nat.add_le_add_iff_right] at hs
      show _ = subDynF special (cs.length + 1) (c :: cs)
      simp only [subDynF]
      match hm : matchPh (c :: cs) with
      | some (key, dflt, rest) =>
        have hlt : rest.length ≤ cs.length := by
          have hml := matchPh_length (c :: cs) key dflt rest hm
          simp only [List.length_cons] at hml
          omega
        simp only [ih fuel (Nat.lt_succ_self _) _ (le_trans hlt hs),
          ih cs.length (Nat.lt_succ_of_le hs) _ hlt]
      | none =>
        simp only [ih fuel (Nat.lt_succ_self _) _ hs,
          ih cs.length (Nat.lt_succ_of_le hs) _ le_rfl]

theorem subDynamic_cons (special : List (Str × Str)) (c : Char) (cs : Str) :
    subDynamic special (c :: cs) =
      match matchPh (c :: cs) with
      | some (key, dflt, rest) =>
        replace_dynamic special key dflt ++ subDynamic special rest
      | none => c :: subDynamic special cs := by
  show subDynF special (cs.length + 1) (c :: cs) = _
  simp only [subDynF]
  match hm : matchPh (c :: cs) with
  | some (key, dflt, rest) =>
    have hlt : rest.length ≤ cs.length := by
      have hml := matchPh_length (c :: cs) key dflt rest hm
      simp only [List.length_cons] at hml
      omega
    simp only [subDynF_eq_subDynamic special cs.length _ hlt]
  | none =>
    simp only [subDynF_eq_subDynamic special cs.length _ le_rfl]

example : subDynamic [(str "ticker", [])] (str "price $\x7bticker=GME\x7d")
    = str "price GME" := by decide

example : subDynamic [(str "ticker", str "TSLA")] (str "price $\x7bticker=GME\x7d")
    = str "price TSLA" := by decide

theorem idxsOf_eq_nil (ch : Char) :
    ∀ l : Str, (∀ c ∈ l, c ≠ ch) → idxsOf ch l = [] := by
  intro l
  induction l with
  | nil => intro _; rfl
  | cons d rest ih =>
    intro h
    simp only [idxsOf, if_neg (h d (List.mem_cons_self d rest)),
      ih fun c hc => h c (List.mem_cons_of_mem _ hc), List.map_nil]

theorem idxsOf_append (ch : Char) :
    ∀ a b : Str,
      idxsOf ch (a ++ b) = idxsOf ch a ++ (idxsOf ch b).map (· + a.length) := by
  intro a
  induction a with
  | nil =>
    intro b
    simp [idxsOf]
  | cons d rest ih =>
    intro b
    have hmap : ((idxsOf ch b).map (· + rest.length)).map (· + 1)
        = (idxsOf ch b).map (· + (rest.length + 1)) := by
      rw [List.map_map]
      refine List.map_congr_left fun x _ => ?_
      simp only [Function.comp_apply]
      omega
    by_cases hdc : d = ch
    · rw [List.cons_append]
      simp only [idxsOf, if_pos hdc, List.length_cons]
      rw [ih b, List.map_append, hmap, List.cons_append]
    · rw [List.cons_append]
      simp only [idxsOf, if_neg hdc, List.length_cons]
      rw [ih b, List.map_append, hmap]

theorem takeWhile_append_all (p : Char → Bool) :
    ∀ a b : Str, (∀ c ∈ a, p c = true) →
      (a ++ b).takeWhile p = a ++ b.takeWhile p := by
  intro a
  induction a with
  | nil => intro b _; rfl
  | cons d rest ih =>
    intro b h
    simp only [List.cons_append, List.takeWhile_cons,
      h d (List.mem_cons_self d rest),
      ih b fun c hc => h c (List.mem_cons_of_mem _ hc), if_true]

theorem dropWhile_append_all (p : Char → Bool) :
    ∀ a b : Str, (∀ c ∈ a, p c = true) →
      (a ++ b).dropWhile p = b.dropWhile p := by
  intro a
  induction a with
  | nil => intro b _; rfl
  | cons d rest ih =>
    intro b h
    simp only [List.cons_append, List.dropWhile_cons,
      h d (List.mem_cons_self d rest),
      ih b fun c hc => h c (List.mem_cons_of_mem _ hc), if_true]

/-- On a well-formed placeholder `$\x7bkey=default\x7d` at the head of the
string, the placeholder regular expression matches exactly the placeholder:
the key and default are extracted and the remainder is the text after the
closing brace (provided the remainder contains no further `=` or closing
brace that greedy matching could extend to). -/
theorem placeholder_match (key dflt post : Str)
    (hk : key ≠ []) (hd : dflt ≠ [])
    (hkc : ∀ c ∈ key, c ≠ obrace ∧ c ≠ cbrace ∧ c ≠ '=')
    (hdc : ∀ c ∈ dflt, c ≠ obrace ∧ c ≠ cbrace ∧ c ≠ '=')
    (hpc : ∀ c ∈ post, c ≠ cbrace ∧ c ≠ '=') :
    matchPh ('$' :: obrace :: (key ++ '=' :: (dflt ++ cbrace :: post)))
      = some (key, dflt, post) := by
  have hchars : ('=' : Char) ≠ obrace ∧ (cbrace : Char) ≠ obrace ∧
      ('=' : Char) ≠ cbrace := by decide
  set p1 := post.takeWhile (fun c => decide (c ≠ obrace)) with hp1
  set p2 := post.dropWhile (fun c => decide (c ≠ obrace)) with hp2
  have hp1mem : ∀ c ∈ p1, c ∈ post := fun c hc =>
    ( List.takeWhile_prefix _).subset hc
  have hA : ∀ c ∈ key ++ '=' :: (dflt ++ [cbrace]),
      (fun c => decide (c ≠ obrace)) c = true := by
    intro c hc
    simp only [decide_eq_true_eq]
    rcases List.mem_append.mp hc with h1 | h2
    · exact (hkc c h1).1
    · rcases List.mem_cons.mp h2 with h3 | h4
      · rw [h3]; exact hchars.1
      · rcases List.mem_append.mp h4 with h5 | h6
        · exact (hdc c h5).1
        · rw [List.mem_singleton.mp h6]; exact hchars.2.1
  have hshape : key ++ '=' :: (dflt ++ cbrace :: post)
      = (key ++ '=' :: (dflt ++ [cbrace])) ++ post := by
    simp [List.append_assoc]
  have hR : (key ++ '=' :: (dflt ++ cbrace :: post)).takeWhile
        (fun c => decide (c ≠ obrace))
      = key ++ '=' :: (dflt ++ cbrace :: p1) := by
    rw [hshape, takeWhile_append_all _ _ _ hA, ← hp1]
    simp [List.append_assoc]
  have hAfter : (key ++ '=' :: (dflt ++ cbrace :: post)).dropWhile
        (fun c => decide (c ≠ obrace)) = p2 := by
    rw [hshape, dropWhile_append_all _ _ _ hA, ← hp2]
  have hp1eq : ∀ c ∈ p1, c ≠ '=' := fun c hc => (hpc c (hp1mem c hc)).2
  have hp1br : ∀ c ∈ p1, c ≠ cbrace := fun c hc => (hpc c (hp1mem c hc)).1
  have heqs : idxsOf '=' (key ++ '=' :: (dflt ++ cbrace :: p1)) = [key.length] := by
    rw [idxsOf_append, idxsOf_eq_nil _ key fun c hc => (hkc c hc).2.2]
    simp only [idxsOf, if_pos rfl, List.nil_append]
    rw [idxsOf_append, idxsOf_eq_nil _ dflt fun c hc => (hdc c hc).2.2]
    simp only [idxsOf, if_neg (Ne.symm hchars.2.2), List.nil_append]
    rw [idxsOf_eq_nil _ p1 hp1eq]
    simp
  have hbrs : idxsOf cbrace (key ++ '=' :: (dflt ++ cbrace :: p1))
      = [dflt.length + 1 + key.length] := by
    rw [idxsOf_append, idxsOf_eq_nil _ key fun c hc => (hkc c hc).2.1]
    simp only [idxsOf, if_neg hchars.2.2, List.nil_append]
    rw [idxsOf_append, idxsOf_eq_nil _ dflt fun c hc => (hdc c hc).2.1]
    simp only [idxsOf, if_pos rfl, List.nil_append]
    rw [idxsOf_eq_nil _ p1 hp1br]
    simp
  have hklen : 1 ≤ key.length := List.length_pos.mpr hk
  have hdlen : 1 ≤ dflt.length := List.length_pos.mpr hd
  have hcond2 : key.length + 2 ≤ dflt.length + 1 + key.length := by omega
  have hfil : (([key.length]).filter fun e =>
        decide (1 ≤ e) &&
          ([dflt.length + 1 + key.length]).any fun j => decide (e + 2 ≤ j))
      = [key.length] := by
    simp [hklen, hcond2]
  have hpick : pickSplit (key ++ '=' :: (dflt ++ cbrace :: p1))
      = some (key.length, dflt.length + 1 + key.length) := by
    simp only [pickSplit, heqs, hbrs, hfil, maxNat]
    rw [if_pos hcond2]
  simp only [matchPh, hR, hAfter, hpick]
  have htake : (key ++ '=' :: (dflt ++ cbrace :: p1)).take key.length = key :=
    List.take_left key _
  have hdrop1 : (key ++ '=' :: (dflt ++ cbrace :: p1)).drop (key.length + 1)
      = dflt ++ cbrace :: p1 := by
    have hsh : key ++ '=' :: (dflt ++ cbrace :: p1)
        = (key ++ ['=']) ++ (dflt ++ cbrace :: p1) := by simp
    have hlen : key.length + 1 = (key ++ ['=']).length := by simp
    rw [hsh, hlen, List.drop_left]
  have htake2 : (dflt ++ cbrace :: p1).take
        (dflt.length + 1 + key.length - key.length - 1) = dflt := by
    have harith : dflt.length + 1 + key.length - key.length - 1 = dflt.length := by
      omega
    rw [harith]
    exact List.take_left dflt _
  have hdrop2 : (key ++ '=' :: (dflt ++ cbrace :: p1)).drop
        (dflt.length + 1 + key.length + 1) = p1 := by
    have hsh : key ++ '=' :: (dflt ++ cbrace :: p1)
        = (key ++ '=' :: (dflt ++ [cbrace])) ++ p1 := by simp
    have hlen : dflt.length + 1 + key.length + 1
        = (key ++ '=' :: (dflt ++ [cbrace])).length := by
      simp only [List.length_append, List.length_cons, List.length_nil]
      omega
    rw [hsh, hlen, List.drop_left]
  rw [htake, hdrop1, htake2, hdrop2,
    show p1 ++ p2 = post from List.takeWhile_append_dropWhile _ _]
  exact if_pos ⟨trivial, trivial⟩

/-- C3: named substitution.  With an empty override for `ticker` the script
default is used; with a non-empty override the override is used; in general a
well-formed `$\x7bkey=default\x7d` placeholder is replaced by the
SpecialArguments value for the key when that value is present and non-empty,
and by the embedded default text otherwise, and scanning continues on the
text after the placeholder. -/
theorem c3_named_substitution :
    subDynamic [(str "ticker", [])] (str "price $\x7bticker=GME\x7d")
        = str "price GME" ∧
    subDynamic [(str "ticker", str "TSLA")] (str "price $\x7bticker=GME\x7d")
        = str "price TSLA" ∧
    ∀ special key dflt post, key ≠ [] → dflt ≠ [] →
      (∀ c ∈ key, c ≠ obrace ∧ c ≠ cbrace ∧ c ≠ '=') →
      (∀ c ∈ dflt, c ≠ obrace ∧ c ≠ cbrace ∧ c ≠ '=') →
      (∀ c ∈ post, c ≠ cbrace ∧ c ≠ '=') →
      subDynamic special
          ('$' :: obrace :: (key ++ '=' :: (dflt ++ cbrace :: post)))
        = replace_dynamic special key dflt ++ subDynamic special post := by
  refine ⟨by decide, by decide, ?_⟩
  intro special key dflt post hk hd hkc hdc hpc
  rw [subDynamic_cons, placeholder_match key dflt post hk hd hkc hdc hpc]

/-- C3 witness: a concrete placeholder with a non-empty override resolves to
the override followed by the rest of the line. -/
theorem c3_witness :
    ((str "ticker" : Str) ≠ [] ∧ (str "GME" : Str) ≠ [] ∧
      (∀ c ∈ str "ticker", c ≠ obrace ∧ c ≠ cbrace ∧ c ≠ '=') ∧
      (∀ c ∈ str "GME", c ≠ obrace ∧ c ≠ cbrace ∧ c ≠ '=') ∧
      (∀ c ∈ str " news", c ≠ cbrace ∧ c ≠ '=')) ∧
    subDynamic [(str "ticker", str "TSLA")]
        ('$' :: obrace :: (str "ticker" ++ '=' :: (str "GME" ++ cbrace :: str " news")))
      = str "TSLA news" :=
  ⟨⟨by decide, by decide, by decide, by decide, by decide⟩,
    (c3_named_substitution.2.2 [(str "ticker", str "TSLA")] (str "ticker")
      (str "GME") (str " news") (by decide) (by decide) (by decide) (by decide)
      (by decide)).trans (by decide)⟩

/-- Modelled from the spec: `insert_start_slash` lives in
`terminal_controller`, which is not under `src/`; per the spec it ensures the
tokenized command path begins with a leading separator token. -/
def insert_start_slash (cmds : List Str) : List Str :=
  match cmds with
  | [] => []
  | c :: rest => if c.head? = some '/' then c :: rest else ('/' :: c) :: rest

/-- Command translation of `run_scripts` (lines 197-208): extract an export
directive from the first line if present, join the remaining lines with the
path separator, collapse doubled separators into `/home/`, tokenize on
whitespace, ensure a leading separator, and re-attach the export directive
with its folder if one was captured.  Accessing the first line of an empty
sequence raises an `IndexError`, as does taking element 1 of a split that
produced a single segment. -/
def translate (lines0 : List Str) : Except Fault (List Str) :=
  match lines0 with
  | [] => Except.error Fault.indexError
  | l0 :: tail =>
    let efRes : Except Fault (Str × List Str) :=
      if occurs (str "export") l0 then
        match (splitAll (str "export ") l0).get? 1 with
        | none => Except.error Fault.indexError
        | some seg => Except.ok (rstrip seg, tail)
      else Except.ok ([], l0 :: tail)
    match efRes with
    | Except.error e => Except.error e
    | Except.ok (export_folder, lines) =>
      let simulate_argv := '/' :: List.intercalate [ '/' ] (lines.map rstrip)
      let file_cmds := splitWs (replaceAll (str "//") (str "/home/") simulate_argv)
      let file_cmds2 := if file_cmds.isEmpty then file_cmds
        else insert_start_slash file_cmds
      if export_folder.isEmpty then
        Except.ok [List.intercalate [ ' ' ] file_cmds2]
      else
        Except.ok [str "export " ++ export_folder
          ++ List.intercalate [ ' ' ] file_cmds2]

/-- The slash-joined, tokenized and re-joined command path built from a line
sequence alone (the part of the translation that does not involve the export
directive). -/
def translatedPath (lines : List Str) : Str :=
  let simulate_argv := '/' :: List.intercalate [ '/' ] (lines.map rstrip)
  let file_cmds := splitWs (replaceAll (str "//") (str "/home/") simulate_argv)
  List.intercalate [ ' ' ]
    (if file_cmds.isEmpty then file_cmds else insert_start_slash file_cmds)

example : translate [str "export reports/", str "stocks", str "load AAPL"]
    = Except.ok [str "export reports//stocks/load AAPL"] := by decide

/-- C6: export extraction.  When the first resolved line contains an export
directive, the translated single-element invocation is the export directive
with the extracted folder, followed by the command path joined from the
remaining lines only — the export line itself is excluded from the join. -/
theorem c6_export_extraction (l0 : Str) (rest : List Str) (seg : Str)
    (hocc : occurs (str "export") l0 = true)
    (hseg : (splitAll (str "export ") l0).get? 1 = some seg)
    (hne : (rstrip seg).isEmpty = false) :
    translate (l0 :: rest)
      = Except.ok [str "export " ++ rstrip seg ++ translatedPath rest] := by
  simp only [translate, if_pos hocc, hseg, translatedPath]
  rw [if_neg (by rw [hne]; exact Bool.false_ne_true)]

/-- C6 witness: the concrete script of the spec example. -/
theorem c6_witness :
    (occurs (str "export") (str "export reports/") = true ∧
      (splitAll (str "export ") (str "export reports/")).get? 1
        = some (str "reports/") ∧
      (rstrip (str "reports/")).isEmpty = false) ∧
    translate [str "export reports/", str "stocks", str "load AAPL"]
      = Except.ok [str "export reports//stocks/load AAPL"] :=
  ⟨⟨by decide, by decide, by decide⟩,
    (c6_export_extraction (str "export reports/") [str "stocks", str "load AAPL"]
      (str "reports/") (by decide) (by decide) (by decide)).trans (by decide)⟩

/-- Argument resolution of `run_scripts` (lines 173-192): positional
substitution when routine arguments are supplied, otherwise named
substitution when special arguments are supplied, otherwise pass-through. -/
def resolveLines (routines_args : List Str) (special : List (Str × Str))
    (raws : List Str) : List Str :=
  if !routines_args.isEmpty then raws.map (substArgv routines_args)
  else if !special.isEmpty then raws.map (subDynamic special)
  else raws

/-- The line pipeline of `run_scripts` (lines 167-208): preprocess the raw
file lines, resolve arguments, append the exit directive in test mode, and
translate into the single-element invocation.  The replay of the resulting
invocation through `terminal()` is an external collaborator and is not part
of this pipeline. -/
def run_scripts_lines (test_mode : Bool) (routines_args : List Str)
    (special : List (Str × Str)) (raws0 : List Str) : Except Fault (List Str) :=
  match appendExit test_mode (resolveLines routines_args special (preprocess raws0)) with
  | Except.error e => Except.error e
  | Except.ok lines => translate lines

theorem resolveLines_nil (routines_args : List Str)
    (special : List (Str × Str)) :
    resolveLines routines_args special [] = [] := by
  simp [resolveLines]

/-- The scripts root used by discovery (line 94): the `scripts` directory
under the miscellaneous directory. -/
def scripts_root (miscDir : Str) : Str := miscDir ++ str "/scripts"

/-- Short-name computation of `run_test_files` (lines 258-259): remove every
occurrence of the miscellaneous-directory prefix from the path, then drop the
first remaining character. -/
def file_short_name (miscDir p : Str) : Str := (replaceAll miscDir [] p).drop 1

/-- The claim's reading of the short name, following the spec's words: the
path relative to the scripts root, i.e. with the scripts-root prefix and its
trailing separator removed. -/
def relative_to_scripts_root (miscDir p : Str) : Str :=
  p.drop ((scripts_root miscDir).length + 1)

/-- Python dictionary insertion `d[k] = v`: replaces the value in place if
the key is present, otherwise appends at the end. -/
def dictInsert {ε : Type} (key : Str) (v : ε) :
    List (Str × ε) → List (Str × ε)
  | [] => [(key, v)]
  | (k, w) :: rest =>
    if k = key then (k, v) :: rest else (k, w) :: dictInsert key v rest

/-- Outcome of one script of `run_test_files` (lines 256-285): compute the
short name, attempt the replay, and on success increment the success count,
on a fault record the fault keyed by the short name and increment the
failure count.  The attempted file is logged either way (the per-script
progress line printed on lines 278-285 is presentation and is elided). -/
structure BatchResult (ε : Type) where
  successes : Nat
  failures : Nat
  fails : List (Str × ε)
  attempted : List Str
deriving DecidableEq, Repr

def batchStep {ε : Type} (runner : Str → Except ε Unit) (miscDir : Str)
    (acc : BatchResult ε) (file : Str) : BatchResult ε :=
  let short := file_short_name miscDir file
  match runner file with
  | Except.ok _ =>
    { acc with successes := acc.successes + 1,
               attempted := acc.attempted ++ [file] }
  | Except.error e =>
    { acc with failures := acc.failures + 1,
               fails := dictInsert short e acc.fails,
               attempted := acc.attempted ++ [file] }

/-- Batch loop of `run_test_files` (lines 250-290), with the replay of one
script (`run_scripts` + the interpreter) abstracted as a fallible runner
oracle, and wall-clock timing treated as external. -/
def run_test_files {ε : Type} (runner : Str → Except ε Unit) (miscDir : Str)
    (files : List Str) : BatchResult ε :=
  files.foldl (batchStep runner miscDir) ⟨0, 0, [], []⟩

def isOk {ε : Type} : Except ε Unit → Bool
  | Except.ok _ => true
  | Except.error _ => false

theorem dictInsert_of_not_mem {ε : Type} (key : Str) (v : ε) :
    ∀ d : List (Str × ε), (∀ kv ∈ d, kv.1 ≠ key) →
      dictInsert key v d = d ++ [(key, v)] := by
  intro d
  induction d with
  | nil => intro _; rfl
  | cons kv rest ih =>
    intro h
    match kv with
    | (k, w) =>
      simp only [dictInsert,
        if_neg (h (k, w) (List.mem_cons_self _ _)), List.cons_append]
      rw [ih fun q hq => h q (List.mem_cons_of_mem _ hq)]

theorem run_test_files_loop {ε : Type} (runner : Str → Except ε Unit)
    (miscDir : Str) :
    ∀ (files : List Str) (acc : BatchResult ε),
      (files.map (file_short_name miscDir)).Nodup →
      (∀ f ∈ files, ∀ kv ∈ acc.fails, kv.1 ≠ file_short_name miscDir f) →
      files.foldl (batchStep runner miscDir) acc =
        ⟨acc.successes + (files.filter fun f => isOk (runner f)).length,
         acc.failures + (files.filter fun f => !isOk (runner f)).length,
         acc.fails ++ files.filterMap (fun f =>
           match runner f with
           | Except.error e => some (file_short_name miscDir f, e)
           | Except.ok _ => none),
         acc.attempted ++ files⟩ := by
  intro files
  induction files with
  | nil =>
    intro acc _ _
    simp
  | cons f fs ih =>
    intro acc hnd hdisj
    simp only [List.map_cons, List.nodup_cons] at hnd
    rw [List.foldl_cons]
    match hrun : runner f with
    | Except.ok u =>
      have hstep : batchStep runner miscDir acc f =
          { acc with successes := acc.successes + 1,
                     attempted := acc.attempted ++ [f] } := by
        simp only [batchStep, hrun]
      have hf1 : List.filter (fun f2 => isOk (runner f2)) (f :: fs)
          = f :: List.filter (fun f2 => isOk (runner f2)) fs := by
        simp [List.filter_cons, hrun, isOk]
      have hf2 : List.filter (fun f2 => !isOk (runner f2)) (f :: fs)
          = List.filter (fun f2 => !isOk (runner f2)) fs := by
        simp [List.filter_cons, hrun, isOk]
      have hf3 : List.filterMap (fun f2 =>
            match runner f2 with
            | Except.error e => some (file_short_name miscDir f2, e)
            | Except.ok _ => none) (f :: fs)
          = List.filterMap (fun f2 =>
              match runner f2 with
              | Except.error e => some (file_short_name miscDir f2, e)
              | Except.ok _ => none) fs := by
        simp [List.filterMap_cons, hrun]
      rw [hstep, ih _ hnd.2 (by
        intro f2 hf2 kv hkv
        exact hdisj f2 (List.mem_cons_of_mem _ hf2) kv hkv),
        hf1, hf2, hf3]
      simp [List.length_cons, List.append_assoc, Nat.add_assoc, Nat.add_comm,
        Nat.add_left_comm]
    | Except.error e =>
      have hfails : dictInsert (file_short_name miscDir f) e acc.fails
          = acc.fails ++ [(file_short_name miscDir f, e)] :=
        dictInsert_of_not_mem _ _ _ fun kv hkv =>
          hdisj f (List.mem_cons_self _ _) kv hkv
      have hstep : batchStep runner miscDir acc f =
          { acc with failures := acc.failures + 1,
                     fails := acc.fails ++ [(file_short_name miscDir f, e)],
                     attempted := acc.attempted ++ [f] } := by
        simp only [batchStep, hrun, hfails]
      have hf1 : List.filter (fun f2 => isOk (runner f2)) (f :: fs)
          = List.filter (fun f2 => isOk (runner f2)) fs := by
        simp [List.filter_cons, hrun, isOk]
      have hf2 : List.filter (fun f2 => !isOk (runner f2)) (f :: fs)
          = f :: List.filter (fun f2 => !isOk (runner f2)) fs := by
        simp [List.filter_cons, hrun, isOk]
      have hf3 : List.filterMap (fun f2 =>
            match runner f2 with
            | Except.error e2 => some (file_short_name miscDir f2, e2)
            | Except.ok _ => none) (f :: fs)
          = (file_short_name miscDir f, e) :: List.filterMap (fun f2 =>
              match runner f2 with
              | Except.error e2 => some (file_short_name miscDir f2, e2)
              | Except.ok _ => none) fs := by
        simp [List.filterMap_cons, hrun]
      rw [hstep, ih _ hnd.2 (by
        intro f2 hf2 kv hkv
        simp only [List.mem_append, List.mem_singleton] at hkv
        rcases hkv with hkv | hkv
        · exact hdisj f2 (List.mem_cons_of_mem _ hf2) kv hkv
        · rw [hkv]
          intro hcontra
          refine hnd.1 ?_
          rw [show file_short_name miscDir f = file_short_name miscDir f2 from
            hcontra]
          exact List.mem_map_of_mem (file_short_name miscDir) hf2),
        hf1, hf2, hf3]
      simp [List.length_cons, List.append_assoc, Nat.add_assoc, Nat.add_comm,
        Nat.add_left_comm]

/-- C1: failure isolation of the batch runner.  Every script in the list is
attempted exactly once, in order; the success count is the number of scripts
whose replay does not raise, the failure count the number whose replay
raises, and the failure records are exactly the raised faults keyed by the
raising scripts' short names, in order — a fault in one script never
prevents later scripts from being attempted. -/
theorem c1_failure_isolation {ε : Type} (runner : Str → Except ε Unit)
    (miscDir : Str) (files : List Str)
    (h : (files.map (file_short_name miscDir)).Nodup) :
    run_test_files runner miscDir files =
      ⟨(files.filter fun f => isOk (runner f)).length,
       (files.filter fun f => !isOk (runner f)).length,
       files.filterMap (fun f =>
         match runner f with
         | Except.error e => some (file_short_name miscDir f, e)
         | Except.ok _ => none),
       files⟩ := by
  have hloop := run_test_files_loop runner miscDir files ⟨0, 0, [], []⟩ h
    (by intro f _ kv hkv; cases hkv)
  simpa [run_test_files] using hloop

/-- Concrete three-script runner for the C1 witness: only the second script
raises. -/
def c1runner : Str → Except Str Unit := fun p =>
  if p = str "/m/scripts/b.openbb" then Except.error (str "boom")
  else Except.ok ()

/-- C1 witness: three scripts of which exactly the second raises give two
successes, one failure, and a single failure record keyed by the second
script's short name; all three scripts are attempted in order. -/
theorem c1_witness :
    (([str "/m/scripts/a.openbb", str "/m/scripts/b.openbb",
        str "/m/scripts/c.openbb"].map (file_short_name (str "/m"))).Nodup) ∧
    run_test_files c1runner (str "/m")
        [str "/m/scripts/a.openbb", str "/m/scripts/b.openbb",
          str "/m/scripts/c.openbb"]
      = ⟨2, 1, [(str "scripts/b.openbb", str "boom")],
          [str "/m/scripts/a.openbb", str "/m/scripts/b.openbb",
            str "/m/scripts/c.openbb"]⟩ :=
  ⟨by decide,
    (c1_failure_isolation c1runner (str "/m")
      [str "/m/scripts/a.openbb", str "/m/scripts/b.openbb",
        str "/m/scripts/c.openbb"] (by decide)).trans (by decide)⟩

/-- C8 counterexample: with the miscellaneous directory at `/m`, the script
`/m/scripts/t.openbb` gets the short name `scripts/t.openbb` — the path
relative to the miscellaneous directory — not `t.openbb`, the path relative
to the scripts root, which is what the claim states. -/
theorem c8_counterexample :
    file_short_name (str "/m") (str "/m/scripts/t.openbb")
        = str "scripts/t.openbb" ∧
    relative_to_scripts_root (str "/m") (str "/m/scripts/t.openbb")
        = str "t.openbb" ∧
    file_short_name (str "/m") (str "/m/scripts/t.openbb")
      ≠ relative_to_scripts_root (str "/m") (str "/m/scripts/t.openbb") :=
  ⟨by decide, by decide, by decide⟩

/-- C8 (amended): the short name equals the script's path relative to the
miscellaneous directory (one level above the scripts root): the
miscellaneous-directory prefix and the following separator are removed,
provided the prefix text does not reoccur later in the path (`str.replace`
removes every occurrence). -/
theorem c8_short_name (miscDir rest : Str) (hm : miscDir ≠ [])
    (hocc : occurs miscDir ('/' :: rest) = false) :
    file_short_name miscDir (miscDir ++ '/' :: rest) = rest := by
  unfold file_short_name
  rw [replaceAll_append_left _ _ _ hm, replaceAll_of_not_occurs _ _ _ hocc]
  rfl

/-- C8 witness: the amended short-name computation at the counterexample's
concrete path. -/
theorem c8_witness :
    ((str "/m" : Str) ≠ [] ∧
      occurs (str "/m") ('/' :: str "scripts/t.openbb") = false) ∧
    file_short_name (str "/m") (str "/m" ++ '/' :: str "scripts/t.openbb")
      = str "scripts/t.openbb" :=
  ⟨⟨by decide, by decide⟩,
    c8_short_name (str "/m") (str "scripts/t.openbb") (by decide) (by decide)⟩

/-- C10: a script whose lines are all removed by preprocessing reaches the
unguarded `lines[-1]` access of line 194 in test mode and raises an
`IndexError`; a batch over such a script records it as a failure (keyed by
its short name) rather than skipping it. -/
theorem c10_empty_script_fault (raws routines_args : List Str)
    (special : List (Str × Str)) (h : preprocess raws = []) :
    run_scripts_lines true routines_args special raws
        = Except.error Fault.indexError ∧
    ∀ p miscDir : Str,
      run_test_files
          (fun _ => (run_scripts_lines true routines_args special raws).map
            fun _ => ())
          miscDir [p]
        = ⟨0, 1, [(file_short_name miscDir p, Fault.indexError)], [p]⟩ := by
  have h1 : run_scripts_lines true routines_args special raws
      = Except.error Fault.indexError := by
    simp [run_scripts_lines, h, resolveLines_nil, appendExit]
  refine ⟨h1, ?_⟩
  intro p miscDir
  simp [run_test_files, batchStep, h1, Except.map, dictInsert]

/-- C10 witness: a two-line script consisting of a comment line and a blank
line is fully stripped, faults with an `IndexError`, and is recorded as the
batch's single failure. -/
theorem c10_witness :
    preprocess [str "# setup\n", str "\n"] = [] ∧
    run_scripts_lines true [] [(str "ticker", str "")]
        [str "# setup\n", str "\n"] = Except.error Fault.indexError ∧
    run_test_files
        (fun _ => (run_scripts_lines true [] [(str "ticker", str "")]
          [str "# setup\n", str "\n"]).map fun _ => ())
        (str "/m") [str "/m/scripts/empty.openbb"]
      = ⟨0, 1, [(str "scripts/empty.openbb", Fault.indexError)],
          [str "/m/scripts/empty.openbb"]⟩ :=
  ⟨by decide,
    (c10_empty_script_fault [str "# setup\n", str "\n"] []
      [(str "ticker", str "")] (by decide)).1,
    ((c10_empty_script_fault [str "# setup\n", str "\n"] []
      [(str "ticker", str "")] (by decide)).2 (str "/m/scripts/empty.openbb")
      (str "/m")).trans (by decide)⟩

/-- Python's `s.endswith(suffix)`. -/
def strEndsWith (suf s : Str) : Bool := suf.reverse.isPrefixOf s.reverse

/-- The recognized script extension (lines 102 and 108). -/
def OPENBB_EXT : Str := str ".openbb"

/-- Abstract filesystem state seen by discovery: existence, file and
directory tests, and the flattened `(root, filename)` pairs produced by
`os.walk`. -/
structure FS where
  pathExists : Str → Bool
  isFile : Str → Bool
  isDir : Str → Bool
  walk : Str → List (Str × Str)

/-- One fragment of `build_test_path_list` (lines 93-110): resolve the
fragment under the scripts root; a missing path is skipped (after a console
diagnostic, elided); a matching file is appended; a directory contributes
every walked file whose name ends in the extension, as `root/name`. -/
def discoverStep (fs : FS) (miscDir : Str) (acc : List Str) (path : Str) :
    List Str :=
  let script_path := scripts_root miscDir ++ '/' :: path
  if fs.pathExists script_path then
    if fs.isFile script_path && strEndsWith OPENBB_EXT script_path then
      acc ++ [script_path]
    else if fs.isDir script_path then
      acc ++ (fs.walk script_path).filterMap fun rn =>
        if strEndsWith OPENBB_EXT rn.2 then some (rn.1 ++ '/' :: rn.2) else none
    else acc
  else acc

/-- Embeds `build_test_path_list` (lines 85-114): collect candidate files over all
fragments, deduplicate with set semantics and return them sorted. -/
def build_test_path_list (fs : FS) (miscDir : Str) (path_list : List Str) :
    List Str :=
  List.insertionSort (· ≤ ·) ((path_list.foldl (discoverStep fs miscDir) []).dedup)

theorem strEndsWith_append_left (suf name root : Str)
    (h : strEndsWith suf name = true) :
    strEndsWith suf (root ++ '/' :: name) = true := by
  unfold strEndsWith at *
  rw [ List.isPrefixOf_iff_prefix] at *
  rw [ List.reverse_prefix] at *
  exact h.trans ⟨root ++ ['/'], by simp⟩

theorem discover_fold_suffix (fs : FS) (miscDir : Str) :
    ∀ (pl acc : List Str),
      (∀ p ∈ acc, strEndsWith OPENBB_EXT p = true) →
      ∀ p ∈ pl.foldl (discoverStep fs miscDir) acc,
        strEndsWith OPENBB_EXT p = true := by
  intro pl
  induction pl with
  | nil =>
    intro acc hacc
    simpa using hacc
  | cons path rest ih =>
    intro acc hacc
    rw [List.foldl_cons]
    refine ih _ ?_
    intro p hp
    unfold discoverStep at hp
    by_cases h1 : fs.pathExists (scripts_root miscDir ++ '/' :: path) = true
    · rw [if_pos h1] at hp
      by_cases h2 : (fs.isFile (scripts_root miscDir ++ '/' :: path)
          && strEndsWith OPENBB_EXT (scripts_root miscDir ++ '/' :: path)) = true
      · rw [if_pos h2] at hp
        rcases List.mem_append.mp hp with hp | hp
        · exact hacc p hp
        · rw [List.mem_singleton.mp hp]
          exact ((Bool.and_eq_true _ _).mp h2).2
      · rw [if_neg h2] at hp
        by_cases h3 : fs.isDir (scripts_root miscDir ++ '/' :: path) = true
        · rw [if_pos h3] at hp
          rcases List.mem_append.mp hp with hp | hp
          · exact hacc p hp
          · rcases List.mem_filterMap.mp hp with ⟨rn, _, hrn⟩
            by_cases h4 : strEndsWith OPENBB_EXT rn.2 = true
            · rw [if_pos h4] at hrn
              rw [← Option.some.inj hrn]
              exact strEndsWith_append_left OPENBB_EXT rn.2 rn.1 h4
            · rw [if_neg h4] at hrn
              cases hrn
        · rw [if_neg h3] at hp
          exact hacc p hp
    · rw [if_neg h1] at hp
      exact hacc p hp

/-- C7: discovery postcondition.  Every returned path ends in the recognized
extension, the list has no duplicates and is sorted, and — the embedding
being a pure function of the filesystem state — repeated calls on the same
state return the same sequence. -/
theorem c7_discovery (fs : FS) (miscDir : Str) (path_list : List Str) :
    (∀ p ∈ build_test_path_list fs miscDir path_list,
      strEndsWith OPENBB_EXT p = true) ∧
    (build_test_path_list fs miscDir path_list).Nodup ∧
    (build_test_path_list fs miscDir path_list).Sorted (· ≤ ·) ∧
    build_test_path_list fs miscDir path_list
      = build_test_path_list fs miscDir path_list := by
  refine ⟨?_, ?_, ?_, rfl⟩
  · intro p hp
    have hmem : p ∈ (path_list.foldl (discoverStep fs miscDir) []).dedup :=
      (List.perm_insertionSort _ _).mem_iff.mp hp
    exact discover_fold_suffix fs miscDir path_list []
      (by intro q hq; cases hq) p (List.mem_dedup.mp hmem)
  · exact (List.perm_insertionSort _ _).nodup_iff.mpr (List.nodup_dedup _)
  · exact List.sorted_insertionSort _ _

/-- Concrete filesystem for the C7 witness: a single matching script file. -/
def fs0 : FS :=
  ⟨fun _ => true, fun p => decide (p = str "/m/scripts/a.openbb"),
    fun _ => false, fun _ => []⟩

/-- C7 witness: the single discovered path ends in the recognized
extension. -/
theorem c7_witness :
    (str "/m/scripts/a.openbb"
        ∈ build_test_path_list fs0 (str "/m") [str "a.openbb"]) ∧
    strEndsWith OPENBB_EXT (str "/m/scripts/a.openbb") = true :=
  ⟨by decide,
    (c7_discovery fs0 (str "/m") [str "a.openbb"]).1 _ (by decide)⟩

/-- Line width of the report titles (line 41). -/
def LENGTH : Nat := 90

/-- Dimmed style for non-application traceback frames (line 42). -/
def GRAY : Str := str "rgb(128,128,128)"

/-- Highlight style for boundary traceback frames (line 43). -/
def YELLOW : Str := str "yellow"

/-- The markup fragments whose widths are compensated for in titles
(lines 44-53). -/
def STYLES : List Str :=
  [str "[bold]", str "[/bold]", str "[red]", str "[/red]", str "[green]",
    str "[/green]", str "[bold red]", str "[/bold red]"]

/-- Embeds `to_title` (lines 56-82): pad the title with the fill character to the
configured width, compensating for the widths of any markup fragments the
title contains.  Python's `int((...)/2)` truncation and `char * n` with a
non-positive count both yield zero repetitions, as here. -/
def to_title (title : Str) (ch : Char) : Str :=
  let t := ' ' :: (title ++ [' '])
  let len_styles : Nat := (STYLES.filter fun st => occurs st t).foldl
    (fun a st => a + st.length) 0
  let n := (((LENGTH : Int) - (t.length : Int) + (len_styles : Int)) / 2).toNat
  let ft := List.replicate n ch ++ t ++ List.replicate n ch
  ft ++ List.replicate
    (((LENGTH : Int) - (ft.length : Int) + (len_styles : Int)).toNat) ch

set_option maxRecDepth 4000 in
example : (to_title (str "FAILURES") '=').length = LENGTH := by decide

set_option maxRecDepth 4000 in
example : to_title (str "ok") '='
    = List.replicate 43 '=' ++ str " ok " ++ List.replicate 43 '=' := by decide

/-- One printed console message: the text and the style it is printed
with. -/
abbrev Msg := Str × Str

/-- One traceback frame as the reporters see it: the frame's file name and
function name, and the text `traceback.format_list` renders for it (the
rendering itself is Python standard-library behaviour, carried here as
data). -/
structure Frame where
  filename : Str
  funcName : Str
  formatted : Str
deriving DecidableEq, Repr

/-- One recorded failure: the exception's class name and message text, and
the extracted traceback frames. -/
structure FailInfo where
  excClass : Str
  excDetail : Str
  tb : List Frame
deriving DecidableEq, Repr

/-- The styled traceback lines of `display_failures` (lines 310-320): frames
outside the application are dimmed, the last line and lines followed by a
non-application line are highlighted, and — faithfully to the source — the
style variable otherwise carries over from the previous iteration. -/
def renderTraceback (fmts : List Str) : List Msg :=
  (fmts.enum.foldl
    (fun (acc : List Msg × Str) p =>
      let st :=
        if occurs (str "openbb_terminal") p.2 = false then GRAY
        else if p.1 = fmts.length - 1 then YELLOW
        else if occurs (str "openbb_terminal") (fmts.getD (p.1 + 1) []) = false
          then YELLOW
        else acc.2
      (acc.1 ++ [(p.2, st)], st))
    ([], [])).1

/-- The messages printed for one failed file by `display_failures`
(lines 305-326). -/
def renderFailure (p : Str × FailInfo) : List Msg :=
  [(to_title (str "[bold red]" ++ p.1 ++ str "[/bold red]") '-', str "red"),
    (str "[bold red]\nTraceback:[/bold red]", [])]
  ++ renderTraceback (p.2.tb.map Frame.formatted)
  ++ [(str "[bold red]Exception type:[/bold red] " ++ p.2.excClass, []),
      (str "[bold red]Detail:[/bold red] " ++ p.2.excDetail, []),
      ((List.replicate (LENGTH / 2) (str "- ")).flatten, [])]

/-- Embeds `display_failures` (lines 293-326) in console-passing form: each
`console.print` appends one message to the console transcript. -/
def display_failures_on (console : List Msg) (fails : List (Str × FailInfo)) :
    List Msg :=
  if fails.isEmpty then console
  else fails.foldl (fun c p => c ++ renderFailure p)
    (console ++ [('\n' :: to_title (str "FAILURES") '=', [])])

/-- Offending-command extraction of `display_summary` (lines 354-359): scan
the traceback innermost-first for a command-dispatch frame and take the
command name from the dispatch function's naming convention. -/
def brokenCmd (tb : List Frame) : Str :=
  match tb.reverse.find? (fun f =>
      occurs (str "_controller.py") f.filename
        && occurs (str "call_") f.funcName) with
  | some f => (splitAll [ '_' ] f.funcName).getD 1 []
  | none => str "unknown"

/-- Embeds `display_summary` (lines 329-369) in console-passing form.  The elapsed
seconds are printed through Python float formatting (`f"{seconds:.2f}"`),
which is external to the embedding; the already-formatted text is taken as
the parameter. -/
def display_summary_on (console : List Msg) (fails : List (Str × FailInfo))
    (n_successes n_failures : Nat) (secondsText : Str) : List Msg :=
  let c1 :=
    if fails.isEmpty then console
    else fails.foldl
      (fun c p =>
        c ++ [(str "FAILED " ++ p.1 ++ str " -> command: " ++ brokenCmd p.2.tb,
          [])])
      (console ++ [('\n' :: to_title (str "integration test summary") '=', [])])
  let failuresTxt := if 0 < n_failures then
      str "[bold][red]" ++ (Nat.repr n_failures).toList
        ++ str " failed, [/red][/bold]"
    else []
  let successesTxt := if 0 < n_successes then
      str "[green]" ++ (Nat.repr n_successes).toList ++ str " passed[/green]"
    else []
  c1 ++ [(to_title
      (failuresTxt ++ successesTxt ++ str " in " ++ secondsText ++ str " s") '=',
    if n_failures = 0 then str "green" else str "red")]

theorem foldl_append_shift {α β : Type} (g : β → List α) :
    ∀ (l : List β) (acc : List α),
      l.foldl (fun c p => c ++ g p) acc
        = acc ++ l.foldl (fun c p => c ++ g p) [] := by
  intro l
  induction l with
  | nil => intro acc; simp
  | cons p ps ih =>
    intro acc
    rw [List.foldl_cons, List.foldl_cons, ih (acc ++ g p), ih ([] ++ g p)]
    simp [List.append_assoc]

theorem display_failures_on_shift (console : List Msg)
    (fails : List (Str × FailInfo)) :
    display_failures_on console fails = console ++ display_failures_on [] fails := by
  unfold display_failures_on
  by_cases h : fails.isEmpty = true
  · simp [h]
  · simp only [h, Bool.false_eq_true, if_false]
    rw [foldl_append_shift _ fails (console ++ _),
      foldl_append_shift _ fails ([] ++ _)]
    simp [List.append_assoc]

theorem display_summary_on_shift (console : List Msg)
    (fails : List (Str × FailInfo)) (n_s n_f : Nat) (secondsText : Str) :
    display_summary_on console fails n_s n_f secondsText
      = console ++ display_summary_on [] fails n_s n_f secondsText := by
  unfold display_summary_on
  by_cases h : fails.isEmpty = true
  · simp [h, List.append_assoc]
  · simp only [h, Bool.false_eq_true, if_false]
    rw [foldl_append_shift _ fails (console ++ _),
      foldl_append_shift _ fails ([] ++ _)]
    simp [List.append_assoc]

/-- C9: idempotent reporting.  The messages a reporter appends to the
console are a function of its arguments only — they do not depend on what
was printed before — so calling either reporter twice on the same inputs
appends the same block of text both times. -/
theorem c9_idempotent_reporting (console : List Msg)
    (fails : List (Str × FailInfo)) (n_s n_f : Nat) (secondsText : Str) :
    (display_failures_on console fails
        = console ++ display_failures_on [] fails) ∧
    (display_summary_on console fails n_s n_f secondsText
        = console ++ display_summary_on [] fails n_s n_f secondsText) ∧
    (display_failures_on (display_failures_on console fails) fails
        = console ++ display_failures_on [] fails
            ++ display_failures_on [] fails) ∧
    (display_summary_on
        (display_summary_on console fails n_s n_f secondsText)
        fails n_s n_f secondsText
      = console ++ display_summary_on [] fails n_s n_f secondsText
          ++ display_summary_on [] fails n_s n_f secondsText) := by
  refine ⟨display_failures_on_shift console fails,
    display_summary_on_shift console fails n_s n_f secondsText, ?_, ?_⟩
  · rw [display_failures_on_shift console fails,
      display_failures_on_shift (console ++ display_failures_on [] fails) fails,
      List.append_assoc]
  · rw [display_summary_on_shift console fails n_s n_f secondsText,
      display_summary_on_shift
        (console ++ display_summary_on [] fails n_s n_f secondsText)
        fails n_s n_f secondsText,
      List.append_assoc]

end IntegrationTesting
